import Mathlib

/-!
Verification development for the mandelbrot generator (src/main.rs).

Modelling conventions (shallow embedding of the Rust source):
  * `f32` values are modelled as exact rationals (`ℚ`); the floating-point
    arithmetic of the source is idealised as exact arithmetic.
  * `u32`/`usize`/`u8` values are modelled as `ℕ`; where the source wraps
    (the `u32` multiplication computing `data_size`) an explicit `% 2^32`
    is applied.  Rust's saturating float-to-integer casts (`as u32`,
    `as usize`, `as u8`) are modelled by explicit clamping functions.
  * Fallible operations (integer division/remainder by zero, slice
    indexing, which panic in Rust) are modelled with `Option`: `none`
    models a panic.
  * Threads: the per-worker loop bounds are computed sequentially in the
    source before any thread runs, and each worker returns its own vector;
    this is modelled by the pure chunk list `genRanges` and per-chunk maps.
-/

namespace MandelbrotRepo

/-- Model of `struct Size { width: f32, height: f32 }`. -/
structure Size where
  width : ℚ
  height : ℚ

/-- Model of `struct Point { x: f32, y: f32 }`. -/
structure Point where
  x : ℚ
  y : ℚ

/-- Model of `struct Rect { origin: Point, size: Size }`. -/
structure Rect where
  origin : Point
  size : Size

/-- Model of `struct Config` (the JSON configuration). -/
structure Config where
  ppu : ℕ
  limit : ℕ
  color_steps : ℚ
  color_components : ℕ
  color_palette : List (List ℚ)
  window : Rect

/-- Truncation toward zero of a rational, the rounding used by Rust's
float-to-integer `as` casts. -/
def qtrunc (q : ℚ) : ℤ :=
  if 0 ≤ q then ⌊q⌋ else -⌊-q⌋

/-- Model of Rust's saturating `f32 as u32` cast: negative values clamp to
`0`, values beyond `u32::MAX` clamp to `2^32 - 1`, others truncate. -/
def f32AsU32 (q : ℚ) : ℕ :=
  if q < 0 then 0 else min (qtrunc q).toNat (2 ^ 32 - 1)

/-- Model of Rust's saturating `f32 as usize` cast (64-bit `usize`). -/
def f32AsUsize (q : ℚ) : ℕ :=
  if q < 0 then 0 else min (qtrunc q).toNat (2 ^ 64 - 1)

/-- Model of Rust's saturating `f32 as u8` cast. -/
def f32AsU8 (q : ℚ) : ℕ :=
  if q < 0 then 0 else min (qtrunc q).toNat 255

/-- Model of `fn idx2point(idx: u32, width: u32) -> Point`:
`x = idx % width`, `y = idx / width`, the components stored as floats.
Rust's integer `%`/`/` panic when `width == 0`; `none` models the panic. -/
def idx2point (idx width : ℕ) : Option Point :=
  if width = 0 then none
  else some ⟨((idx % width : ℕ) : ℚ), ((idx / width : ℕ) : ℚ)⟩

/-- Model of `fn point2idx(p: Point, width: u32) -> u32`:
`width * (p.y as u32) + (p.x as u32)` in `u32` arithmetic. -/
def point2idx (p : Point) (width : ℕ) : ℕ :=
  (width * f32AsU32 p.y + f32AsU32 p.x) % 2 ^ 32

/-- Model of the loop body of `fn mandelbrot`: fuel counts the remaining
iterations (`limit - count`); the returned value is the number of completed
iterations.  The source's `let xy/xx/yy` bindings are inlined. -/
def mandelGo (cx cy : ℚ) : ℕ → ℚ → ℚ → ℕ
  | 0, _, _ => 0
  | n + 1, x, y =>
    if x * x + y * y > 4 then 0
    else mandelGo cx cy n (x * x - y * y + cx) (x * y * 2 + cy) + 1

/-- Model of `fn mandelbrot(cx: f32, cy: f32, limit: u32) -> u32`, seeded at
`x = cx, y = cy`. -/
def mandelbrot (cx cy : ℚ) (limit : ℕ) : ℕ :=
  mandelGo cx cy limit cx cy

/-- Orbit of the escape-time recurrence started from an arbitrary state
`(x, y)`: the sequence of states the loop of `mandelbrot` passes through. -/
def orbitFrom (cx cy : ℚ) : ℚ → ℚ → ℕ → ℚ × ℚ
  | x, y, 0 => (x, y)
  | x, y, k + 1 => orbitFrom cx cy (x * x - y * y + cx) (x * y * 2 + cy) k

/-- Orbit of the point `(cx, cy)` with the source's seeding `z₀ = c`. -/
def orbit (cx cy : ℚ) (k : ℕ) : ℚ × ℚ :=
  orbitFrom cx cy cx cy k

/-- Squared magnitude `x*x + y*y`, the quantity the escape test compares
against `4.0`. -/
def normSq (p : ℚ × ℚ) : ℚ :=
  p.1 * p.1 + p.2 * p.2

/-- Model of `(data_size as f32 / thread_count as f32).ceil() as u32` from
`gen_mandelbrot`, as exact ceiling division (the float division is exact
whenever the operands and quotient are representable). -/
def thread_work (ds W : ℕ) : ℕ :=
  (ds + W - 1) / W

/-- Clamping of one worker's `thread_end` in `gen_mandelbrot`, with `r`
workers remaining after this one and `thread_start = s`: the prospective
end is the wrapping `u32` addition `(s + work) % 2^32` (the source's
`thread_end = thread_end + thread_work`), clamped to `ds` only when the
wrapped value exceeds it (the source's `if thread_end > data_size`); the
last worker's end (`r = 0`, i.e. `t == thread_count - 1`) is forced to
`ds`. -/
def chunkEnd (ds work r s : ℕ) : ℕ :=
  if r = 0 then ds
  else if ds < (s + work) % 2 ^ 32 then ds else (s + work) % 2 ^ 32

/-- Model of the chunk-assignment loop of `gen_mandelbrot`.
`genRanges ds work r s` is the list of `(thread_start, thread_end)` pairs
produced with `r` workers remaining and current `thread_start = s`; each
worker's (clamped) end becomes the next worker's start.  The `u32` loop
variables wrap: see `chunkEnd`. -/
def genRanges (ds work : ℕ) : ℕ → ℕ → List (ℕ × ℕ)
  | 0, _ => []
  | r + 1, s =>
    (s, chunkEnd ds work r s) :: genRanges ds work r (chunkEnd ds work r s)

/-- Model of `let data_size = size.width as u32 * size.height as u32;`
(`u32` multiplication wraps). -/
def data_size (size : Size) : ℕ :=
  (f32AsU32 size.width * f32AsU32 size.height) % 2 ^ 32

/-- Model of the per-index body of the worker closure in `gen_mandelbrot`:
pixel index to pixel point, normalisation by the grid size, mapping into the
window (with the vertical flip), then the escape-time evaluator. -/
def pixel (size : Size) (window : Rect) (limit : ℕ) (i : ℕ) : Option ℕ :=
  match idx2point i (f32AsU32 size.width) with
  | none => none
  | some p =>
    let px := p.x / size.width
    let py := p.y / size.height
    let cx := window.origin.x + px * window.size.width
    let cy := (window.origin.y + window.size.height) - py * window.size.height
    some (mandelbrot cx cy limit)

/-- Effectful map over a list of pixel indices (the worker's `for` loop
pushing into `thread_data`); `none` models a panic inside the loop. -/
def mapMo (f : ℕ → Option ℕ) : List ℕ → Option (List ℕ)
  | [] => some []
  | a :: l => (f a).bind fun b => (mapMo f l).map fun bs => b :: bs

/-- Model of one worker's output vector: the loop
`for i in thread_start..thread_end` over its half-open range. -/
def workerData (size : Size) (window : Rect) (limit s e : ℕ) : Option (List ℕ) :=
  mapMo (pixel size window limit) (List.range' s (e - s))

/-- Model of the join-and-concat loop
`for g in guards { data.extend(g.join().unwrap()...) }`; a panicked worker
(`none`) makes the `unwrap` panic, i.e. the whole result `none`. -/
def joinOptions : List (Option (List ℕ)) → Option (List ℕ)
  | [] => some []
  | o :: rest => o.bind fun l => (joinOptions rest).map fun ls => l ++ ls

/-- Model of `fn gen_mandelbrot(size: &Size, config: &Config) -> Vec<u32>`.
The worker count `W` (the source's `thread_count`, auto-detected via
`num_cpus`) is taken as a parameter. -/
def gen_mandelbrot (size : Size) (config : Config) (W : ℕ) : Option (List ℕ) :=
  joinOptions ((genRanges (data_size size) (thread_work (data_size size) W) W 0).map
    (fun p => workerData size config.window config.limit p.1 p.2))

/-- Model of Rust's `f32 %` (remainder of truncated division) on exact
rationals.  For `b = 0` the source produces `NaN`; NaN propagation is not
modelled (no claim exercises it): Lean's `a / 0 = 0` convention applies. -/
def qmod (a b : ℚ) : ℚ :=
  a - b * (qtrunc (a / b) : ℚ)

/-- Model of `fn rbg_from_palette(palette: &Vec<Vec<f32>>, idx: usize)`:
`(palette[idx][0], palette[idx][1], palette[idx][2])`; `none` models the
out-of-bounds panics. -/
def rbg_from_palette (palette : List (List ℚ)) (idx : ℕ) : Option (ℚ × ℚ × ℚ) :=
  match palette.get? idx with
  | none => none
  | some color =>
    match color.get? 0, color.get? 1, color.get? 2 with
    | some r, some g, some b => some (r, g, b)
    | _, _, _ => none

/-- Model of the `else` branch of `color_for_val_with_config` (the palette
interpolation): `val = (val as f32 % steps) * palette.len() as f32 / steps`,
`left = val as usize % palette.len()` (the `% 0` panic for an empty palette
is modelled by the explicit length test), `right = (left+1) % len`,
`p = val - left as f32`, then per-channel linear interpolation truncated by
the `as u8` cast. -/
def color_interp (steps : ℚ) (palette : List (List ℚ)) (valq : ℚ) :
    Option (ℕ × ℕ × ℕ) :=
  if palette.length = 0 then none
  else
    let v := qmod valq steps * (palette.length : ℚ) / steps
    let left := f32AsUsize v % palette.length
    let right := (left + 1) % palette.length
    let p := v - (left : ℚ)
    match rbg_from_palette palette left, rbg_from_palette palette right with
    | some (r1, g1, b1), some (r2, g2, b2) =>
      some (f32AsU8 (r1 + (r2 - r1) * p), f32AsU8 (g1 + (g2 - g1) * p),
        f32AsU8 (b1 + (b2 - b1) * p))
    | _, _ => none

/-- Model of `fn color_for_val_with_config(val: u32, config: &Config)`:
black for `val == limit`, otherwise palette interpolation. -/
def color_for_val_with_config (val : ℕ) (config : Config) : Option (ℕ × ℕ × ℕ) :=
  if val = config.limit then some (0, 0, 0)
  else color_interp config.color_steps config.color_palette (val : ℚ)

/-- Model of `fn validate_config(conf: &Config)` as a boolean: `true` iff
none of its `panic!` branches fire (limit at most 10000, exactly 3 color
components, every palette entry of matching length). -/
def validate_config (conf : Config) : Bool :=
  decide (conf.limit ≤ 10000) && decide (conf.color_components = 3) &&
    conf.color_palette.all (fun v => decide (v.length = conf.color_components))

/-- Sample 1x1 grid used by witnesses. -/
def sampleSize : Size :=
  ⟨1, 1⟩

/-- Sample configuration over the window `[0,1] × [0,1]` used by witnesses. -/
def sampleConfig : Config :=
  ⟨1, 2, 2, 3, [[0, 0, 0], [255, 255, 255]], ⟨⟨0, 0⟩, ⟨1, 1⟩⟩⟩

/-- Degenerate size (zero width) used by the C9 witness. -/
def zeroWidthSize : Size :=
  ⟨0, 7⟩

/-- Configuration with an empty palette used by the C10 witness. -/
def emptyPaletteConfig : Config :=
  ⟨1, 10, 2, 3, [], ⟨⟨0, 0⟩, ⟨1, 1⟩⟩⟩

/-- Configuration with limit 10 and integral color steps used by the C6
witness. -/
def cyclicConfig : Config :=
  ⟨1, 10, 2, 3, [[0, 0, 0], [255, 255, 255]], ⟨⟨0, 0⟩, ⟨1, 1⟩⟩⟩

/-- Size 65537 x 65535 pixels, whose `data_size` is `2^32 - 1`; used by the
wrap counterexamples for C1 and C2. -/
def cexSize : Size :=
  ⟨65537, 65535⟩

theorem mandelGo_le (cx cy : ℚ) : ∀ (n : ℕ) (x y : ℚ), mandelGo cx cy n x y ≤ n := by
  intro n
  induction n with
  | zero => intro x y; simp [mandelGo]
  | succ n ih =>
    intro x y
    rw [mandelGo]
    split
    · exact Nat.zero_le _
    · exact Nat.succ_le_succ (ih _ _)

theorem mandelGo_eq_iff (cx cy : ℚ) :
    ∀ (n : ℕ) (x y : ℚ),
      mandelGo cx cy n x y = n ↔ ∀ k, k < n → normSq (orbitFrom cx cy x y k) ≤ 4 := by
  intro n
  induction n with
  | zero => intro x y; simp [mandelGo]
  | succ n ih =>
    intro x y
    rw [mandelGo]
    split
    · rename_i h
      constructor
      · intro h0; exact absurd h0.symm (Nat.succ_ne_zero n)
      · intro hall
        have h0 := hall 0 (Nat.succ_pos n)
        simp only [orbitFrom, normSq] at h0
        exact absurd h (not_lt.mpr h0)
    · rename_i h
      rw [add_left_inj, ih]
      constructor
      · intro hall k hk
        cases k with
        | zero =>
          simpa [orbitFrom, normSq] using le_of_not_lt h
        | succ k =>
          show normSq (orbitFrom cx cy (x*x - y*y + cx) (x*y*2 + cy) k) ≤ 4
          exact hall k (Nat.lt_of_succ_lt_succ hk)
      · intro hall k hk
        have := hall (k+1) (Nat.succ_lt_succ hk)
        exact this

theorem pixel_le (size : Size) (window : Rect) (limit i v : ℕ)
    (h : pixel size window limit i = some v) : v ≤ limit := by
  unfold pixel at h
  cases hi : idx2point i (f32AsU32 size.width) with
  | none => rw [hi] at h; exact absurd h (by simp)
  | some p =>
    rw [hi] at h
    simp only [Option.some.injEq] at h
    subst h
    exact mandelGo_le _ _ _ _ _

theorem mapMo_mem (f : ℕ → Option ℕ) :
    ∀ (l : List ℕ) (out : List ℕ), mapMo f l = some out →
      ∀ v ∈ out, ∃ i ∈ l, f i = some v := by
  intro l
  induction l with
  | nil => intro out h v hv; simp [mapMo] at h; subst h; simp at hv
  | cons a t ih =>
    intro out h v hv
    simp only [mapMo] at h
    cases ha : f a with
    | none => rw [ha] at h; simp at h
    | some b =>
      rw [ha] at h
      simp only [Option.some_bind] at h
      cases ht : mapMo f t with
      | none => rw [ht] at h; simp at h
      | some bs =>
        rw [ht] at h
        simp only [Option.map_some', Option.some.injEq] at h
        subst h
        rcases List.mem_cons.mp hv with hvb | hvbs
        · exact ⟨a, List.mem_cons_self a t, hvb ▸ ha⟩
        · rcases ih bs ht v hvbs with ⟨i, hit, hfi⟩
          exact ⟨i, List.mem_cons_of_mem a hit, hfi⟩

theorem joinOptions_mem :
    ∀ (L : List (Option (List ℕ))) (out : List ℕ), joinOptions L = some out →
      ∀ v ∈ out, ∃ o ∈ L, ∃ ls, o = some ls ∧ v ∈ ls := by
  intro L
  induction L with
  | nil => intro out h v hv; simp [joinOptions] at h; subst h; simp at hv
  | cons o rest ih =>
    intro out h v hv
    simp only [joinOptions] at h
    cases ho : o with
    | none => rw [ho] at h; simp at h
    | some l =>
      rw [ho] at h
      simp only [Option.some_bind] at h
      cases hr : joinOptions rest with
      | none => rw [hr] at h; simp at h
      | some ls =>
        rw [hr] at h
        simp only [Option.map_some', Option.some.injEq] at h
        subst h
        rcases List.mem_append.mp hv with hvl | hvls
        · exact ⟨some l, List.mem_cons_self _ _, l, rfl, hvl⟩
        · rcases ih ls hr v hvls with ⟨o2, ho2, ls2, ho2e, hv2⟩
          exact ⟨o2, List.mem_cons_of_mem _ ho2, ls2, ho2e, hv2⟩

/-- C3: the escape-time evaluator returns a value in `[0, limit]`; it
returns exactly `limit` iff the squared magnitude of the orbit never
exceeds `4` within `limit` iterations; consequently every iteration count
in a generated field is at most the configured limit. -/
theorem mandelbrot_range_and_limit_iff (cx cy : ℚ) (limit : ℕ) :
    mandelbrot cx cy limit ≤ limit ∧
      (mandelbrot cx cy limit = limit ↔
        ∀ k, k < limit → normSq (orbit cx cy k) ≤ 4) ∧
      ∀ (size : Size) (config : Config) (W : ℕ) (field : List ℕ),
        gen_mandelbrot size config W = some field →
          ∀ v ∈ field, v ≤ config.limit := by
  refine ⟨mandelGo_le cx cy limit cx cy, mandelGo_eq_iff cx cy limit cx cy, ?_⟩
  intro size config W field hgen v hv
  rcases joinOptions_mem _ field hgen v hv with ⟨o, hoL, ls, hoe, hvls⟩
  rcases List.mem_map.mp hoL with ⟨p, _, hpo⟩
  rw [← hpo] at hoe
  rcases mapMo_mem _ _ _ hoe v hvls with ⟨i, _, hfi⟩
  exact pixel_le size config.window config.limit i v hfi

/-- Witness for C3 at a concrete run: the sample 1x1 field is `[2]` and its
single entry is at most the configured limit. -/
theorem mandelbrot_range_and_limit_iff_witness :
    gen_mandelbrot sampleSize sampleConfig 1 = some [2] ∧ 2 ≤ sampleConfig.limit := by
  have hgen : gen_mandelbrot sampleSize sampleConfig 1 = some [2] := by
    norm_num [gen_mandelbrot, data_size, f32AsU32, qtrunc, thread_work, genRanges, chunkEnd,
      workerData, mapMo, pixel, idx2point, mandelbrot, mandelGo, joinOptions,
      sampleSize, sampleConfig]
  exact ⟨hgen, (mandelbrot_range_and_limit_iff 0 0 0).2.2 sampleSize sampleConfig 1 [2]
    hgen 2 (by simp)⟩

/-- C7: a point whose squared magnitude exceeds `4` diverges immediately:
the evaluator returns `0` or `1` (in fact `0`). -/
theorem mandelbrot_immediate_escape (cx cy : ℚ) (limit : ℕ)
    (h : cx * cx + cy * cy > 4) :
    mandelbrot cx cy limit = 0 ∨ mandelbrot cx cy limit = 1 := by
  left
  cases limit with
  | zero => rfl
  | succ n => unfold mandelbrot mandelGo; rw [if_pos h]

/-- Witness for C7 at the concrete point `(3, 0)`. -/
theorem mandelbrot_immediate_escape_witness :
    (3 : ℚ) * 3 + 0 * 0 > 4 ∧ (mandelbrot 3 0 5 = 0 ∨ mandelbrot 3 0 5 = 1) :=
  ⟨by norm_num, mandelbrot_immediate_escape 3 0 5 (by norm_num)⟩

theorem f32AsU32_natCast (n : ℕ) (h : n < 2 ^ 32) : f32AsU32 ((n : ℕ) : ℚ) = n := by
  unfold f32AsU32 qtrunc
  rw [if_neg (not_lt.mpr (Nat.cast_nonneg n)), if_pos (Nat.cast_nonneg n),
    Int.floor_natCast, Int.toNat_natCast]
  omega

/-- C4: index-to-point-to-index round trip on a grid of positive width. -/
theorem idx2point_point2idx_roundtrip (width height idx : ℕ)
    (hw : 0 < width) (hwlt : width < 2 ^ 32)
    (_hidx : idx < width * height) (hlt : idx < 2 ^ 32) :
    (idx2point idx width).map (fun p => point2idx p width) = some idx := by
  unfold idx2point
  rw [if_neg (Nat.pos_iff_ne_zero.mp hw)]
  simp only [Option.map_some', Option.some.injEq]
  unfold point2idx
  show (width * f32AsU32 ((idx / width : ℕ) : ℚ) + f32AsU32 ((idx % width : ℕ) : ℚ)) % 2 ^ 32 = idx
  rw [f32AsU32_natCast (idx / width) (by have := Nat.div_le_self idx width; omega),
    f32AsU32_natCast (idx % width) (by have := Nat.mod_lt idx hw; omega),
    Nat.div_add_mod, Nat.mod_eq_of_lt hlt]

/-- Witness for C4 on a 10x10 grid at index 37. -/
theorem idx2point_point2idx_roundtrip_witness :
    0 < 10 ∧ 37 < 10 * 10 ∧
      (idx2point 37 10).map (fun p => point2idx p 10) = some 37 :=
  ⟨by decide, by decide,
    idx2point_point2idx_roundtrip 10 10 37 (by decide) (by decide) (by decide) (by decide)⟩

/-- C8 counterexample: at the point `(-1, -1)` with grid width 10 the code
returns index `0` (the negative coordinates saturate to `0` in the
`as u32` casts), which differs from the claimed formula
`gridWidth * floor(y) + floor(x) = -11` and is in range for a 10x10 grid
rather than out of range. -/
theorem point2idx_negative_not_floor :
    point2idx ⟨-1, -1⟩ 10 = 0 ∧
      (10 : ℤ) * ⌊(-1 : ℚ)⌋ + ⌊(-1 : ℚ)⌋ = -11 ∧ (0 : ℕ) < 10 * 10 :=
  ⟨rfl, by norm_num, by decide⟩

/-- C8 amended: for points with nonnegative coordinates (in `u32` range,
with the combined index below `2^32`), `point2idx` computes
`gridWidth * floor(y) + floor(x)` with no bounds check; negative
coordinates are instead clamped to `0` by the saturating casts. -/
theorem point2idx_floor_formula (p : Point) (width : ℕ)
    (hx : 0 ≤ p.x) (hy : 0 ≤ p.y) (hxlt : p.x < 2 ^ 32) (hylt : p.y < 2 ^ 32)
    (hsum : width * ⌊p.y⌋.toNat + ⌊p.x⌋.toNat < 2 ^ 32) :
    point2idx p width = width * ⌊p.y⌋.toNat + ⌊p.x⌋.toNat := by
  have hfx : ⌊p.x⌋ < 2 ^ 32 := Int.floor_lt.mpr (by exact_mod_cast hxlt)
  have hfy : ⌊p.y⌋ < 2 ^ 32 := Int.floor_lt.mpr (by exact_mod_cast hylt)
  unfold point2idx f32AsU32 qtrunc
  rw [if_neg (not_lt.mpr hx), if_neg (not_lt.mpr hy), if_pos hx, if_pos hy,
    min_eq_left (by omega), min_eq_left (by omega), Nat.mod_eq_of_lt hsum]

/-- Witness for the amended C8 at the out-of-grid point `(12.5, 3)`. -/
theorem point2idx_floor_formula_witness :
    (0 : ℚ) ≤ 25 / 2 ∧
      point2idx ⟨25 / 2, 3⟩ 10 = 10 * (⌊(3 : ℚ)⌋.toNat) + (⌊(25 / 2 : ℚ)⌋.toNat) :=
  ⟨by norm_num,
    point2idx_floor_formula ⟨25 / 2, 3⟩ 10 (by norm_num) (by norm_num) (by norm_num)
      (by norm_num) (by norm_num; omega)⟩

theorem genRanges_length (ds work : ℕ) :
    ∀ (r s : ℕ), (genRanges ds work r s).length = r := by
  intro r
  induction r with
  | zero => intro s; rfl
  | succ r ih => intro s; simp [genRanges, ih]

theorem chunkEnd_bounds (ds work r s : ℕ) (hs : s ≤ ds) (hno : ds + work < 2 ^ 32) :
    s ≤ chunkEnd ds work r s ∧ chunkEnd ds work r s ≤ ds := by
  unfold chunkEnd
  rw [Nat.mod_eq_of_lt (by omega)]
  split
  · omega
  · split <;> omega

theorem genRanges_bounds (ds work : ℕ) (hno : ds + work < 2 ^ 32) :
    ∀ (r s : ℕ), s ≤ ds → ∀ p ∈ genRanges ds work r s,
      s ≤ p.1 ∧ p.1 ≤ p.2 ∧ p.2 ≤ ds := by
  intro r
  induction r with
  | zero => intro s _ p hp; simp [genRanges] at hp
  | succ r ih =>
    intro s hs p hp
    obtain ⟨h1, h2⟩ := chunkEnd_bounds ds work r s hs hno
    rcases List.mem_cons.mp hp with hp | hp
    · subst hp; exact ⟨le_refl _, h1, h2⟩
    · obtain ⟨g1, g2, g3⟩ := ih (chunkEnd ds work r s) h2 p hp
      exact ⟨le_trans h1 g1, g2, g3⟩

theorem genRanges_flatten (ds work : ℕ) (hno : ds + work < 2 ^ 32) :
    ∀ (r s : ℕ), 1 ≤ r → s ≤ ds →
      ((genRanges ds work r s).map (fun p => List.range' p.1 (p.2 - p.1))).flatten =
        List.range' s (ds - s) := by
  intro r
  induction r with
  | zero => intro s h; omega
  | succ r ih =>
    intro s _ hs
    cases r with
    | zero =>
      simp [genRanges, chunkEnd]
    | succ r =>
      obtain ⟨h1, h2⟩ := chunkEnd_bounds ds work (r + 1) s hs hno
      rw [genRanges, List.map_cons, List.flatten_cons]
      rw [ih (chunkEnd ds work (r + 1) s) (Nat.le_add_left 1 r) h2]
      have happ := List.range'_append_1 s (chunkEnd ds work (r + 1) s - s)
        (ds - chunkEnd ds work (r + 1) s)
      have hthis : s + (chunkEnd ds work (r + 1) s - s) = chunkEnd ds work (r + 1) s := by
        omega
      rw [hthis] at happ
      rw [happ]
      congr 1
      omega

theorem genRanges_chain (ds work : ℕ) :
    ∀ (r s : ℕ), List.Chain' (fun a b => a.2 = b.1) (genRanges ds work r s) := by
  intro r
  induction r with
  | zero => intro s; simp [genRanges]
  | succ r ih =>
    intro s
    cases r with
    | zero => simp [genRanges]
    | succ r =>
      rw [genRanges, genRanges]
      exact List.Chain'.cons rfl (by rw [← genRanges]; exact ih _)

theorem genRanges_pairwise_le (ds work : ℕ) (hno : ds + work < 2 ^ 32) :
    ∀ (r s : ℕ), s ≤ ds →
      List.Pairwise (fun a b => a.2 ≤ b.1) (genRanges ds work r s) := by
  intro r
  induction r with
  | zero => intro s _; simp [genRanges]
  | succ r ih =>
    intro s hs
    obtain ⟨h1, h2⟩ := chunkEnd_bounds ds work r s hs hno
    rw [genRanges]
    refine List.Pairwise.cons ?_ (ih _ h2)
    intro p hp
    exact (genRanges_bounds ds work hno r (chunkEnd ds work r s) h2 p hp).1

theorem genRanges_drop (ds work : ℕ) (hno : ds + work < 2 ^ 32) :
    ∀ (i r s : ℕ), s ≤ ds → i < r →
      (genRanges ds work r s).drop i =
        genRanges ds work (r - i) (min (s + i * work) ds) := by
  intro i
  induction i with
  | zero =>
    intro r s hs _
    have hmin : min (s + 0 * work) ds = s := by omega
    rw [List.drop_zero, Nat.sub_zero, hmin]
  | succ i ih =>
    intro r s hs hir
    cases r with
    | zero => omega
    | succ r =>
      have hr : i < r := by omega
      have hrne : r ≠ 0 := by omega
      rw [genRanges, List.drop_succ_cons]
      rw [ih r (chunkEnd ds work r s) (chunkEnd_bounds ds work r s hs hno).2 hr]
      congr 1
      · omega
      · unfold chunkEnd
        rw [if_neg hrne, Nat.mod_eq_of_lt (by omega)]
        have hmul : s + (i + 1) * work = s + work + i * work := by ring
        rw [hmul]
        split
        · rename_i hlt
          rw [min_eq_right (Nat.le_add_right ds (i * work)),
            min_eq_right (Nat.le_trans (Nat.le_of_lt hlt) (Nat.le_add_right _ _))]
        · rfl

theorem mapMo_append (f : ℕ → Option ℕ) :
    ∀ (l1 l2 : List ℕ), mapMo f (l1 ++ l2) =
      (mapMo f l1).bind fun a => (mapMo f l2).map fun b => a ++ b := by
  intro l1 l2
  induction l1 with
  | nil =>
    cases h2 : mapMo f l2 with
    | none => simp [mapMo, h2]
    | some bs => simp [mapMo, h2]
  | cons a t ih =>
    rw [List.cons_append, mapMo, ih, mapMo]
    cases f a with
    | none => rfl
    | some b =>
      simp only [Option.some_bind]
      cases mapMo f t with
      | none => rfl
      | some bs =>
        simp only [Option.map_some', Option.some_bind]
        cases mapMo f l2 with
        | none => rfl
        | some cs => simp

theorem joinOptions_map (f : ℕ → Option ℕ) :
    ∀ (R : List (ℕ × ℕ)),
      joinOptions (R.map (fun p => mapMo f (List.range' p.1 (p.2 - p.1)))) =
        mapMo f ((R.map (fun p => List.range' p.1 (p.2 - p.1))).flatten) := by
  intro R
  induction R with
  | nil => rfl
  | cons p R ih =>
    simp only [List.map_cons, joinOptions, List.flatten_cons, mapMo_append, ih]

theorem gen_eq_mapMo (size : Size) (config : Config) (W : ℕ) (hW : 1 ≤ W)
    (hno : data_size size + thread_work (data_size size) W < 2 ^ 32) :
    gen_mandelbrot size config W =
      mapMo (pixel size config.window config.limit)
        (List.range' 0 (data_size size)) := by
  unfold gen_mandelbrot workerData
  rw [joinOptions_map, genRanges_flatten _ _ hno W 0 hW (Nat.zero_le _), Nat.sub_zero]

theorem gen_one (size : Size) (config : Config) :
    gen_mandelbrot size config 1 =
      mapMo (pixel size config.window config.limit)
        (List.range' 0 (data_size size)) := by
  have hr : genRanges (data_size size) (thread_work (data_size size) 1) 1 0 =
      [(0, data_size size)] := by
    rw [genRanges, genRanges, show chunkEnd (data_size size)
        (thread_work (data_size size) 1) 0 0 = data_size size from if_pos rfl]
  unfold gen_mandelbrot workerData
  rw [hr]
  simp only [List.map_cons, List.map_nil, joinOptions, Nat.sub_zero]
  cases mapMo (pixel size config.window config.limit)
      (List.range' 0 (data_size size)) with
  | none => rfl
  | some l => simp

/-- C2 (amended): as long as the partitioner arithmetic cannot overflow
`u32` (`totalPixels + chunkSize < 2^32`), the generated field does not
depend on the worker count: for every `W ≥ 1` the result equals the
single-worker run.  Without that bound the claim is false: see the
counterexample with `W = 1000000`. -/
theorem gen_mandelbrot_worker_count_irrelevant (size : Size) (config : Config)
    (W : ℕ) (hW : 1 ≤ W)
    (hno : data_size size + thread_work (data_size size) W < 2 ^ 32) :
    gen_mandelbrot size config W = gen_mandelbrot size config 1 := by
  rw [gen_eq_mapMo size config W hW hno, gen_one size config]

/-- Witness for C2 with 7 workers on the sample configuration. -/
theorem gen_mandelbrot_worker_count_irrelevant_witness :
    1 ≤ 7 ∧
      data_size sampleSize + thread_work (data_size sampleSize) 7 < 2 ^ 32 ∧
      gen_mandelbrot sampleSize sampleConfig 7 =
        gen_mandelbrot sampleSize sampleConfig 1 := by
  have hds : data_size sampleSize = 1 := by
    norm_num [data_size, sampleSize, f32AsU32, qtrunc]
  have hno : data_size sampleSize + thread_work (data_size sampleSize) 7 < 2 ^ 32 := by
    rw [hds]; norm_num [thread_work]
  exact ⟨by decide, hno,
    gen_mandelbrot_worker_count_irrelevant sampleSize sampleConfig 7 (by decide) hno⟩

theorem f32AsU32_zero : f32AsU32 0 = 0 := by
  simp [f32AsU32, qtrunc]

/-- C9: a degenerate size (zero width or zero height) yields an empty field
with no worker performing any division (the generation succeeds). -/
theorem gen_mandelbrot_degenerate_empty (size : Size) (config : Config) (W : ℕ)
    (h : size.width = 0 ∨ size.height = 0) :
    gen_mandelbrot size config W = some [] := by
  have hds : data_size size = 0 := by
    unfold data_size
    rcases h with h | h <;> rw [h, f32AsU32_zero] <;> simp
  cases W with
  | zero => rfl
  | succ n =>
    have hno : data_size size + thread_work (data_size size) (n + 1) < 2 ^ 32 := by
      rw [hds]
      unfold thread_work
      have : (0 + (n + 1) - 1) / (n + 1) = 0 := Nat.div_eq_of_lt (by omega)
      omega
    rw [gen_eq_mapMo size config (n + 1) (Nat.succ_le_succ (Nat.zero_le n)) hno, hds]
    rfl

/-- Witness for C9: a zero-width size with 3 workers generates `some []`. -/
theorem gen_mandelbrot_degenerate_empty_witness :
    zeroWidthSize.width = 0 ∧ gen_mandelbrot zeroWidthSize sampleConfig 3 = some [] :=
  ⟨rfl, gen_mandelbrot_degenerate_empty zeroWidthSize sampleConfig 3 (Or.inl rfl)⟩

theorem thread_work_pos (ds W : ℕ) (hW : 1 ≤ W) (hds : 1 ≤ ds) :
    1 ≤ thread_work ds W := by
  unfold thread_work
  rw [Nat.one_le_div_iff (by omega)]
  omega

/-- C1 (amended): for `totalPixels = width*height` and any `W ≥ 1` such
that the partitioner arithmetic cannot overflow `u32`
(`totalPixels + chunkSize < 2^32`), the worker ranges produced with
`chunkSize = ceil(totalPixels / W)` are contiguous (each end is the next
start), pairwise disjoint, their union is exactly `[0, totalPixels)`, and
when `W > totalPixels` every worker with index at least `totalPixels`
receives an empty range.  Without the overflow bound the claim is false:
see the counterexample with `W = 1000000`. -/
theorem partition_ranges_correct (width height W : ℕ) (hW : 1 ≤ W)
    (hno : width * height + thread_work (width * height) W < 2 ^ 32) :
    List.Chain' (fun a b => a.2 = b.1)
        (genRanges (width * height) (thread_work (width * height) W) W 0) ∧
      List.Pairwise (fun a b => Disjoint (Finset.Ico a.1 a.2) (Finset.Ico b.1 b.2))
        (genRanges (width * height) (thread_work (width * height) W) W 0) ∧
      (∀ j, (∃ p ∈ genRanges (width * height) (thread_work (width * height) W) W 0,
          p.1 ≤ j ∧ j < p.2) ↔ j < width * height) ∧
      (width * height < W →
        ∀ i p, width * height ≤ i →
          (genRanges (width * height) (thread_work (width * height) W) W 0).get? i =
            some p → p.1 = p.2) := by
  set ds := width * height with hds
  set work := thread_work ds W with hwork
  have hno2 : ds + work < 2 ^ 32 := hno
  refine ⟨genRanges_chain ds work W 0, ?_, ?_, ?_⟩
  · refine (genRanges_pairwise_le ds work hno2 W 0 (Nat.zero_le ds)).imp ?_
    intro a b hab
    rw [Finset.disjoint_left]
    intro j hja hjb
    rw [Finset.mem_Ico] at hja hjb
    omega
  · intro j
    have hflat := genRanges_flatten ds work hno2 W 0 hW (Nat.zero_le ds)
    constructor
    · rintro ⟨p, hp, hj1, hj2⟩
      have hmem : j ∈ List.range' p.1 (p.2 - p.1) := by
        rw [List.mem_range'_1]
        omega
      have : j ∈ List.range' 0 (ds - 0) := by
        rw [← hflat]
        exact List.mem_flatten_of_mem (List.mem_map_of_mem _ hp) hmem
      rw [List.mem_range'_1] at this
      omega
    · intro hj
      have : j ∈ List.range' 0 (ds - 0) := by
        rw [List.mem_range'_1]
        omega
      rw [← hflat] at this
      rcases List.mem_flatten.mp this with ⟨l, hl, hjl⟩
      rcases List.mem_map.mp hl with ⟨p, hp, hpl⟩
      refine ⟨p, hp, ?_⟩
      rw [← hpl, List.mem_range'_1] at hjl
      have hb := genRanges_bounds ds work hno2 W 0 (Nat.zero_le ds) p hp
      omega
  · intro hdsW i p hdi hget
    have hilen : i < W := by
      have := List.get?_eq_some.mp hget
      rcases this with ⟨h, _⟩
      rwa [genRanges_length ds work W 0] at h
    have hdrop := genRanges_drop ds work hno2 i W 0 (Nat.zero_le ds) hilen
    have hmin : min (0 + i * work) ds = ds := by
      cases Nat.eq_zero_or_pos ds with
      | inl h0 => omega
      | inr hpos =>
        have hw1 : 1 ≤ work := thread_work_pos ds W hW hpos
        have : ds ≤ i * work :=
          le_trans hdi (le_trans (Nat.le_mul_of_pos_right i hw1) (le_refl _))
        omega
    rw [hmin] at hdrop
    have hp_mem : p ∈ genRanges ds work (W - i) ds := by
      have hg : (genRanges ds work W 0).get? i = ((genRanges ds work W 0).drop i).get? 0 := by
        rw [List.get?_drop]
        rfl
      rw [hg, hdrop] at hget
      exact List.get?_mem hget
    have hb := genRanges_bounds ds work hno2 (W - i) ds (le_refl ds) p hp_mem
    omega

/-- Witness for C1 on a 2x2 grid with 3 workers: the concrete range list is
contiguous. -/
theorem partition_ranges_correct_witness :
    1 ≤ 3 ∧ 2 * 2 + thread_work (2 * 2) 3 < 2 ^ 32 ∧
      List.Chain' (fun a b => a.2 = b.1)
        (genRanges (2 * 2) (thread_work (2 * 2) 3) 3 0) :=
  ⟨by decide, by decide, (partition_ranges_correct 2 2 3 (by decide) (by decide)).1⟩

theorem qmod_cast_period (a s : ℕ) (hs : 0 < s) :
    qmod ((a : ℚ) + (s : ℚ)) (s : ℚ) = qmod (a : ℚ) (s : ℚ) := by
  have hsq : (0 : ℚ) < (s : ℚ) := by exact_mod_cast hs
  have h1 : ((a : ℚ) + (s : ℚ)) / (s : ℚ) = (a : ℚ) / (s : ℚ) + 1 := by
    rw [add_div, div_self (ne_of_gt hsq)]
  have h2 : (0 : ℚ) ≤ (a : ℚ) / (s : ℚ) :=
    div_nonneg (Nat.cast_nonneg a) (le_of_lt hsq)
  unfold qmod qtrunc
  rw [h1, if_pos (by linarith), if_pos h2, Int.floor_add_one]
  push_cast
  ring

/-- C5: the color function maps `count = limit` to the dedicated black
sentinel `(0,0,0)` for every configuration, whatever the palette holds. -/
theorem color_for_limit_black (config : Config) :
    color_for_val_with_config config.limit config = some (0, 0, 0) := by
  unfold color_for_val_with_config
  rw [if_pos rfl]

/-- C6: the color function is cyclic in the iteration count with period
`colorSteps` (an integral number of steps, so that `count + steps` is again
a valid count), as long as `count + steps` stays below the limit. -/
theorem color_for_cyclic (count steps : ℕ) (config : Config)
    (hsteps : config.color_steps = (steps : ℚ))
    (hlt : count + steps < config.limit) :
    color_for_val_with_config count config =
      color_for_val_with_config (count + steps) config := by
  have h1 : count ≠ config.limit := by omega
  have h2 : count + steps ≠ config.limit := by omega
  unfold color_for_val_with_config
  rw [if_neg h1, if_neg h2]
  cases Nat.eq_zero_or_pos steps with
  | inl h0 => subst h0; rfl
  | inr hpos =>
    have hq : qmod (((count + steps : ℕ) : ℚ)) config.color_steps =
        qmod (((count : ℕ) : ℚ)) config.color_steps := by
      rw [hsteps]
      push_cast
      exact qmod_cast_period count steps hpos
    simp only [color_interp, hq]

/-- Witness for C6 at `count = 1`, `steps = 2`, limit 10. -/
theorem color_for_cyclic_witness :
    cyclicConfig.color_steps = ((2 : ℕ) : ℚ) ∧ 1 + 2 < cyclicConfig.limit ∧
      color_for_val_with_config 1 cyclicConfig =
        color_for_val_with_config (1 + 2) cyclicConfig :=
  ⟨by norm_num [cyclicConfig], by norm_num [cyclicConfig],
    color_for_cyclic 1 2 cyclicConfig (by norm_num [cyclicConfig])
      (by norm_num [cyclicConfig])⟩

/-- C10: with an empty palette the interpolation branch of the color
function fails (the `%` by the palette length and the palette indexing
panic) for every `count` other than `limit`, while the defensive validator
accepts such a configuration: a nonempty palette is an unchecked
precondition. -/
theorem empty_palette_fails_unvalidated :
    (∀ (count : ℕ) (config : Config), config.color_palette = [] →
        count ≠ config.limit → color_for_val_with_config count config = none) ∧
      (∀ config : Config, config.color_palette = [] → config.limit ≤ 10000 →
        config.color_components = 3 → validate_config config = true) := by
  constructor
  · intro count config hpal hne
    unfold color_for_val_with_config
    rw [if_neg hne]
    simp only [color_interp, hpal]
    rfl
  · intro config hpal hlim hcomp
    unfold validate_config
    rw [hpal]
    simp [hlim, hcomp]

/-- Witness for C10 on the concrete empty-palette configuration. -/
theorem empty_palette_fails_unvalidated_witness :
    (emptyPaletteConfig.color_palette = [] ∧ (0 : ℕ) ≠ emptyPaletteConfig.limit ∧
        color_for_val_with_config 0 emptyPaletteConfig = none) ∧
      validate_config emptyPaletteConfig = true :=
  ⟨⟨rfl, by decide,
      empty_palette_fails_unvalidated.1 0 emptyPaletteConfig rfl (by decide)⟩,
    empty_palette_fails_unvalidated.2 emptyPaletteConfig rfl (by decide) rfl⟩

theorem genRanges_drop_shift (ds work : ℕ) (hds : ds < 2 ^ 32) :
    ∀ (i r s : ℕ), i + 1 < r → s + i * work ≤ ds →
      (genRanges ds work r s).drop i = genRanges ds work (r - i) (s + i * work) := by
  intro i
  induction i with
  | zero =>
    intro r s _ _
    simp
  | succ i ih =>
    intro r s hir hs
    cases r with
    | zero => omega
    | succ r =>
      have hrne : r ≠ 0 := by omega
      have e2 : s + (i + 1) * work = s + work + i * work := by ring
      have hsw : s + work ≤ ds := by
        have : work ≤ (i + 1) * work := Nat.le_mul_of_pos_left work (by omega)
        omega
      have hce : chunkEnd ds work r s = s + work := by
        unfold chunkEnd
        rw [if_neg hrne, Nat.mod_eq_of_lt (by omega), if_neg (by omega)]
      have e1 : r + 1 - (i + 1) = r - i := by omega
      rw [e1, e2, genRanges, List.drop_succ_cons, hce]
      exact ih r (s + work) (by omega) (e2 ▸ hs)

theorem genRanges_sum_shift (ds work : ℕ) (hds : ds < 2 ^ 32) :
    ∀ (i r s : ℕ), i + 1 < r → s + i * work ≤ ds →
      ((genRanges ds work r s).map (fun p => p.2 - p.1)).sum =
        i * work +
          ((genRanges ds work (r - i) (s + i * work)).map (fun p => p.2 - p.1)).sum := by
  intro i
  induction i with
  | zero =>
    intro r s _ _
    simp
  | succ i ih =>
    intro r s hir hs
    cases r with
    | zero => omega
    | succ r =>
      have hrne : r ≠ 0 := by omega
      have e2 : s + (i + 1) * work = s + work + i * work := by ring
      have hsw : s + work ≤ ds := by
        have : work ≤ (i + 1) * work := Nat.le_mul_of_pos_left work (by omega)
        omega
      have hce : chunkEnd ds work r s = s + work := by
        unfold chunkEnd
        rw [if_neg hrne, Nat.mod_eq_of_lt (by omega), if_neg (by omega)]
      have e1 : r + 1 - (i + 1) = r - i := by omega
      rw [e1, e2, genRanges, hce, List.map_cons, List.sum_cons]
      rw [ih r (s + work) (by omega) (e2 ▸ hs)]
      have hws : s + work - s = work := by omega
      rw [hws]
      ring

/-- C1 counterexample: with `totalPixels = 65537 * 65535 = 2^32 - 1` and
`W = 1000000` workers, the wrapping `u32` addition computing a prospective
`thread_end` overflows past the clamp, so the ranges of workers 0 and
999993 both contain pixel 2639: the ranges are not pairwise disjoint, and
the claimed partition property fails within the claim's `W >= 1` scope. -/
theorem partition_ranges_not_disjoint :
    1 ≤ 1000000 ∧
      (genRanges (65537 * 65535) (thread_work (65537 * 65535) 1000000)
          1000000 0).get? 0 = some (0, 4295) ∧
      (genRanges (65537 * 65535) (thread_work (65537 * 65535) 1000000)
          1000000 0).get? 999993 = some (2639, 6934) ∧
      ¬ List.Pairwise (fun a b => Disjoint (Finset.Ico a.1 a.2) (Finset.Ico b.1 b.2))
          (genRanges (65537 * 65535) (thread_work (65537 * 65535) 1000000)
            1000000 0) := by
  have hwork : thread_work (65537 * 65535) 1000000 = 4295 := by decide
  have h0 : (genRanges (65537 * 65535) 4295 1000000 0).get? 0 = some (0, 4295) := by
    decide
  have hdrop := genRanges_drop_shift (65537 * 65535) 4295 (by norm_num)
    999992 1000000 0 (by norm_num) (by norm_num)
  have h1 : (genRanges (65537 * 65535) 4295 1000000 0).get? 999993 =
      some (2639, 6934) := by
    have hg : (genRanges (65537 * 65535) 4295 1000000 0).get? 999993 =
        ((genRanges (65537 * 65535) 4295 1000000 0).drop 999992).get? 1 := by
      rw [List.get?_drop]
    rw [hg, hdrop]
    decide
  refine ⟨by decide, by rw [hwork]; exact h0, by rw [hwork]; exact h1, ?_⟩
  rw [hwork]
  intro hp
  rw [List.get?_eq_getElem?] at h0 h1
  obtain ⟨hlt0, heq0⟩ := List.getElem?_eq_some_iff.mp h0
  obtain ⟨hlt1, heq1⟩ := List.getElem?_eq_some_iff.mp h1
  have hrel := List.pairwise_iff_getElem.mp hp 0 999993 hlt0 hlt1 (by norm_num)
  rw [heq0, heq1] at hrel
  exact Finset.not_disjoint_iff.mpr
    ⟨2639, Finset.mem_Ico.mpr ⟨by norm_num, by norm_num⟩,
      Finset.mem_Ico.mpr ⟨by norm_num, by norm_num⟩⟩ hrel

theorem pixel_some (size : Size) (window : Rect) (limit i : ℕ)
    (h : f32AsU32 size.width ≠ 0) :
    ∃ v, pixel size window limit i = some v := by
  cases hp : idx2point i (f32AsU32 size.width) with
  | none =>
    unfold idx2point at hp
    rw [if_neg h] at hp
    exact absurd hp (by simp)
  | some p => exact ⟨_, by unfold pixel; rw [hp]⟩

theorem mapMo_some_length (f : ℕ → Option ℕ) :
    ∀ (l : List ℕ), (∀ a ∈ l, ∃ b, f a = some b) →
      ∃ out, mapMo f l = some out ∧ out.length = l.length := by
  intro l
  induction l with
  | nil => intro _; exact ⟨[], rfl, rfl⟩
  | cons a t ih =>
    intro h
    obtain ⟨b, hb⟩ := h a (List.mem_cons_self a t)
    obtain ⟨out, hout, hlen⟩ := ih (fun x hx => h x (List.mem_cons_of_mem a hx))
    refine ⟨b :: out, ?_, by simp [hlen]⟩
    simp [mapMo, hb, hout]

theorem joinOptions_workerData_length (size : Size) (window : Rect) (limit : ℕ)
    (hpx : ∀ i, ∃ v, pixel size window limit i = some v) :
    ∀ (R : List (ℕ × ℕ)), ∃ out,
      joinOptions (R.map (fun p => workerData size window limit p.1 p.2)) = some out ∧
        out.length = (R.map (fun p => p.2 - p.1)).sum := by
  intro R
  induction R with
  | nil => exact ⟨[], rfl, rfl⟩
  | cons p R ih =>
    obtain ⟨out, hout, hlen⟩ := ih
    obtain ⟨o1, ho1, hlen1⟩ := mapMo_some_length (pixel size window limit)
      (List.range' p.1 (p.2 - p.1)) (fun a _ => hpx a)
    have ho1w : workerData size window limit p.1 p.2 = some o1 := ho1
    refine ⟨o1 ++ out, ?_, ?_⟩
    · simp only [List.map_cons, joinOptions, ho1w, hout, Option.some_bind,
        Option.map_some']
    · rw [List.length_range'] at hlen1
      simp [hlen, hlen1]

/-- C2 counterexample: on the 65537 x 65535 grid (`data_size = 2^32 - 1`)
the field produced with `W = 1000000` workers has a different length than
the single-worker field (8589930296 entries against 4294967295: a large
region is generated twice after the wrapped `thread_end` escapes the
clamp), so the field is not independent of the worker count. -/
theorem gen_mandelbrot_worker_count_matters :
    1 ≤ 1000000 ∧
      gen_mandelbrot cexSize sampleConfig 1000000 ≠
        gen_mandelbrot cexSize sampleConfig 1 := by
  refine ⟨by decide, ?_⟩
  have hW : f32AsU32 cexSize.width = 65537 := by
    show f32AsU32 (65537 : ℚ) = 65537
    rw [show (65537 : ℚ) = ((65537 : ℕ) : ℚ) by norm_num]
    exact f32AsU32_natCast 65537 (by norm_num)
  have hH : f32AsU32 cexSize.height = 65535 := by
    show f32AsU32 (65535 : ℚ) = 65535
    rw [show (65535 : ℚ) = ((65535 : ℕ) : ℚ) by norm_num]
    exact f32AsU32_natCast 65535 (by norm_num)
  have hds : data_size cexSize = 4294967295 := by
    unfold data_size
    rw [hW, hH]
    norm_num
  have hwne : f32AsU32 cexSize.width ≠ 0 := by rw [hW]; norm_num
  have hpx : ∀ i, ∃ v, pixel cexSize sampleConfig.window sampleConfig.limit i = some v :=
    fun i => pixel_some cexSize sampleConfig.window sampleConfig.limit i hwne
  obtain ⟨lW, hlW, hlenW⟩ := joinOptions_workerData_length cexSize
    sampleConfig.window sampleConfig.limit hpx
    (genRanges (data_size cexSize) (thread_work (data_size cexSize) 1000000) 1000000 0)
  obtain ⟨l1, hl1, hlen1⟩ := joinOptions_workerData_length cexSize
    sampleConfig.window sampleConfig.limit hpx
    (genRanges (data_size cexSize) (thread_work (data_size cexSize) 1) 1 0)
  have hgW : gen_mandelbrot cexSize sampleConfig 1000000 = some lW := by
    unfold gen_mandelbrot
    exact hlW
  have hg1 : gen_mandelbrot cexSize sampleConfig 1 = some l1 := by
    unfold gen_mandelbrot
    exact hl1
  have hwork : thread_work (data_size cexSize) 1000000 = 4295 := by
    rw [hds]
    decide
  have hsuffix : ((genRanges 4294967295 4295 8 4294965640).map
      (fun p => p.2 - p.1)).sum = 4294964656 := by decide
  have hsumW : ((genRanges (data_size cexSize)
      (thread_work (data_size cexSize) 1000000) 1000000 0).map
        (fun p => p.2 - p.1)).sum = 8589930296 := by
    rw [hwork, hds]
    have hshift := genRanges_sum_shift 4294967295 4295 (by norm_num)
      999992 1000000 0 (by norm_num) (by norm_num)
    rw [hshift]
    norm_num [hsuffix]
  have hsum1 : ((genRanges (data_size cexSize)
      (thread_work (data_size cexSize) 1) 1 0).map
        (fun p => p.2 - p.1)).sum = 4294967295 := by
    rw [hds]
    decide
  intro heq
  rw [hgW, hg1, Option.some.injEq] at heq
  have : lW.length = l1.length := by rw [heq]
  rw [hlenW, hlen1, hsumW, hsum1] at this
  exact absurd this (by norm_num)

end MandelbrotRepo
